import Mathlib

/-!
Verification of the argument-autofill core (call-site locator, argument-list
analyzer, parameter resolver, argument text synthesizer, completion surface)
against its natural-language specification.  Program strings are modelled as
`List Char`; the optional symbol-source adapter (the Java language server's
signature help) is modelled as an `Option (List MethodParameter)` input: `none`
covers the adapter being absent, failing, or returning no usable signature,
exactly the cases in which the source leaves `parameters` equal to `null`.
-/

set_option maxRecDepth 10000

namespace Autofill

/-- Shorthand: the character list of a string literal. -/
def chars (s : String) : List Char := s.data

/-- The whitespace class of the JavaScript regex `\s` (restricted to the ASCII
whitespace characters, which are the only ones the analysed documents use). -/
def isJsSpace (c : Char) : Bool :=
  c = ' ' || c = '\t' || c = '\n' || c = '\r' || c = '\x0b' || c = '\x0c'

/-- The identifier-character class of the source's regex `[a-zA-Z0-9_]`. -/
def isIdentChar (c : Char) : Bool :=
  c.isAlpha || c.isDigit || c = '_'

/-- JavaScript `String.prototype.trim`: strip whitespace at both ends. -/
def trim (l : List Char) : List Char :=
  ((l.dropWhile isJsSpace).reverse.dropWhile isJsSpace).reverse

/-- Configuration options (`AutofillOptions` in `types.ts`). -/
structure AutofillOptions where
  enableCompletion : Bool
  useParameterNames : Bool
  fallbackToTypeName : Bool
  deriving DecidableEq, Repr

/-- A resolved method parameter (`MethodParameter` in `types.ts`). -/
structure MethodParameter where
  name : List Char
  type : List Char
  index : Nat
  deriving DecidableEq, Repr

/-- Result of an argument fill (`ArgumentFillResult` in `types.ts`). -/
structure ArgumentFillResult where
  arguments : List Char
  replaceStart : Nat
  replaceLength : Nat
  deriving DecidableEq, Repr

/-- Context of a located call site (`MethodCallContext` in `argumentFiller`). -/
structure MethodCallContext where
  methodName : List Char
  isConstructor : Bool
  openParenOffset : Nat
  closeParenOffset : Nat
  argumentsStart : Nat
  argumentsLength : Nat
  existingArguments : List Char
  deriving DecidableEq, Repr

/-- Backward scan of `ArgumentFiller.findMethodCallContext`: from index `i`
down to `0`, a `')'` increments the depth, a `'('` at depth `0` is the opening
parenthesis, any other `'('` decrements the depth. -/
def findOpenFrom (text : List Char) : Nat → Nat → Option Nat
  | depth, 0 =>
    if text.getD 0 ' ' = ')' then none
    else if text.getD 0 ' ' = '(' then
      if depth = 0 then some 0 else none
    else none
  | depth, i + 1 =>
    if text.getD (i + 1) ' ' = ')' then findOpenFrom text (depth + 1) i
    else if text.getD (i + 1) ' ' = '(' then
      if depth = 0 then some (i + 1) else findOpenFrom text (depth - 1) i
    else findOpenFrom text depth i

/-- One fuel-counted unrolling of the forward scan of
`ArgumentFiller.findMethodCallContext`; the fuel bounds the remaining loop
iterations and never runs out for the starting value used below. -/
def findCloseSteps (text : List Char) : Nat → Nat → Nat → Option Nat
  | 0, _, _ => none
  | fuel + 1, depth, i =>
    if i < text.length then
      if text.getD i ' ' = '(' then findCloseSteps text fuel (depth + 1) (i + 1)
      else if text.getD i ' ' = ')' then
        if depth = 1 then some i else findCloseSteps text fuel (depth - 1) (i + 1)
      else findCloseSteps text fuel depth (i + 1)
    else none

/-- Forward scan of `ArgumentFiller.findMethodCallContext`: from index `i` to
the end of the text, over `'('`/`')'` only, find the closing parenthesis that
brings the depth back to zero. -/
def findCloseFrom (text : List Char) (depth : Nat) (i : Nat) : Option Nat :=
  findCloseSteps text (text.length - i) depth i

/-- The loop `while (start > 0 && \s.test(text[start-1])) start--` from
`ArgumentFiller.extractMethodName`. -/
def skipWsBack (text : List Char) : Nat → Nat
  | 0 => 0
  | i + 1 => if isJsSpace (text.getD i ' ') then skipWsBack text i else i + 1

/-- The loop `while (start > 0 && [a-zA-Z0-9_].test(text[start-1])) start--` from
`ArgumentFiller.extractMethodName`. -/
def skipIdentBack (text : List Char) : Nat → Nat
  | 0 => 0
  | i + 1 => if isIdentChar (text.getD i ' ') then skipIdentBack text i else i + 1

/-- Embedding of `ArgumentFiller.extractMethodName`: walk back over whitespace, then over a
maximal identifier run; fail when the run is empty; mark the call as a
constructor when the three characters before the preceding whitespace spell
`new`. -/
def extractMethodName (text : List Char) (openParenOffset : Nat) :
    Option (List Char × Bool) :=
  let e := skipWsBack text openParenOffset
  let s := skipIdentBack text e
  if s = e then none
  else
    let beforeName := skipWsBack text s
    some ((text.drop s).take (e - s),
      decide (3 ≤ beforeName ∧ (text.drop (beforeName - 3)).take 3 = chars "new"))

/-- Embedding of `ArgumentFiller.findMethodCallContext`. -/
def findMethodCallContext (text : List Char) (offset : Nat) :
    Option MethodCallContext :=
  let scanStart := if 0 < offset then offset - 1 else 0
  match findOpenFrom text 0 scanStart with
  | none => none
  | some openParenOffset =>
    match findCloseFrom text 1 (openParenOffset + 1) with
    | none => none
    | some closeParenOffset =>
      match extractMethodName text openParenOffset with
      | none => none
      | some (name, isCtor) =>
        some { methodName := name
               isConstructor := isCtor
               openParenOffset := openParenOffset
               closeParenOffset := closeParenOffset
               argumentsStart := openParenOffset + 1
               argumentsLength := closeParenOffset - openParenOffset - 1
               existingArguments :=
                 trim ((text.drop (openParenOffset + 1)).take
                   (closeParenOffset - openParenOffset - 1)) }

/-- The loop of `ArgumentFiller.countArguments`: a single shared bracket-depth
counter (JavaScript `let depth`, which may go negative, hence `Int`) and a
string-literal toggle keyed to the quote character that opened the literal. -/
def countArgsLoop : List Char → Int → Bool → Char → Nat → Nat
  | [], _, _, _, count => count
  | c :: rest, depth, inString, stringChar, count =>
    if inString = false then
      if c = '"' ∨ c = '\'' then countArgsLoop rest depth true c count
      else if c = '(' ∨ c = '[' ∨ c = '{' then
        countArgsLoop rest (depth + 1) false stringChar count
      else if c = ')' ∨ c = ']' ∨ c = '}' then
        countArgsLoop rest (depth - 1) false stringChar count
      else if c = ',' ∧ depth = 0 then
        countArgsLoop rest depth false stringChar (count + 1)
      else countArgsLoop rest depth false stringChar count
    else if c = stringChar then countArgsLoop rest depth false stringChar count
    else countArgsLoop rest depth true stringChar count

/-- Embedding of `ArgumentFiller.countArguments`. -/
def countArguments (argsString : List Char) : Nat :=
  if trim argsString = [] then 0
  else countArgsLoop argsString 0 false ' ' 1

/-- The fixed heuristic lookup table `knownPatterns` of
`ArgumentFiller.generatePlaceholderParameters`. -/
def knownPatternsTable : List (List Char × List (List Char)) :=
  [(chars "equals", [chars "obj"]),
   (chars "compareTo", [chars "other"]),
   (chars "indexOf", [chars "element"]),
   (chars "contains", [chars "element"]),
   (chars "add", [chars "element"]),
   (chars "remove", [chars "element"]),
   (chars "put", [chars "key", chars "value"]),
   (chars "get", [chars "key"]),
   (chars "substring", [chars "beginIndex", chars "endIndex"]),
   (chars "replace", [chars "oldValue", chars "newValue"]),
   (chars "split", [chars "regex"]),
   (chars "format", [chars "format", chars "args"]),
   (chars "printf", [chars "format", chars "args"]),
   (chars "println", [chars "message"]),
   (chars "print", [chars "message"]),
   (chars "append", [chars "str"]),
   (chars "insert", [chars "offset", chars "str"])]

/-- Embedding of `ArgumentFiller.generatePlaceholderParameters`: the conventional-setter
pattern first, then the fixed lookup table, else no parameters. -/
def generatePlaceholderParameters (methodName : List Char) (_isConstructor : Bool) :
    List MethodParameter :=
  if methodName.take 3 = chars "set" ∧ 3 < methodName.length then
    [{ name := Char.toLower (methodName.getD 3 ' ') :: methodName.drop 4
       type := chars "Object"
       index := 0 }]
  else
    match knownPatternsTable.find? (fun p => p.1 = methodName) with
    | some p => p.2.enum.map (fun ip => { name := ip.2, type := chars "Object", index := ip.1 })
    | none => []

/-- Embedding of `ArgumentFiller.parseParametersFromContext`: refuse when arguments already
exist; otherwise produce heuristic placeholders only when the
`fallbackToTypeName` option is enabled. -/
def parseParametersFromContext (options : AutofillOptions) (_text : List Char)
    (context : MethodCallContext) : Option (List MethodParameter) :=
  if 0 < context.existingArguments.length ∧ 0 < countArguments context.existingArguments then
    none
  else if options.fallbackToTypeName then
    some (generatePlaceholderParameters context.methodName context.isConstructor)
  else none

/-- The strip step `typeName.replace(/[<>[\]]/g, '')` from
`ArgumentFiller.generateArgumentString`. -/
def stripTypeBrackets (t : List Char) : List Char :=
  t.filter (fun c => !(c = '<' || c = '>' || c = '[' || c = ']'))

/-- The step `split('.').pop()`: the substring after the last `'.'` (the whole string
when there is no dot; empty when the string ends in a dot). -/
def afterLastDot (l : List Char) : List Char :=
  (l.reverse.takeWhile (fun c => c ≠ '.')).reverse

/-- The JavaScript `|| 'arg'` default applied to the popped type segment. -/
def orArg (l : List Char) : List Char :=
  if l = [] then chars "arg" else l

/-- The lower-casing step `typeName.charAt(0).toLowerCase() + typeName.substring(1)`. -/
def lowerFirst : List Char → List Char
  | [] => []
  | c :: rest => Char.toLower c :: rest

/-- The per-parameter type-derived identifier of
`ArgumentFiller.generateArgumentString`'s middle branch. -/
def typeDerivedName (t : List Char) : List Char :=
  lowerFirst (orArg (afterLastDot (stripTypeBrackets t)))

/-- Embedding of `ArgumentFiller.generateArgumentString`. -/
def generateArgumentString (options : AutofillOptions)
    (parameters : List MethodParameter) : List Char :=
  if options.useParameterNames then
    List.intercalate (chars ", ") (parameters.map MethodParameter.name)
  else if options.fallbackToTypeName then
    List.intercalate (chars ", ") (parameters.map (fun p => typeDerivedName p.type))
  else
    List.intercalate (chars ", ")
      (parameters.enum.map (fun ip => chars "arg" ++ Nat.toDigits 10 (ip.1 + 1)))

/-- Embedding of `ArgumentFiller.fillArguments`.  `lsParameters` is the outcome of the
language-server query: `none` when the adapter is absent, throws, or returns
no usable signature (the source leaves `parameters` as `null` in all of those
cases). -/
def fillArguments (options : AutofillOptions)
    (lsParameters : Option (List MethodParameter))
    (text : List Char) (offset : Nat) : Option ArgumentFillResult :=
  match findMethodCallContext text offset with
  | none => none
  | some methodCallInfo =>
    let parameters : Option (List MethodParameter) :=
      match lsParameters with
      | some ps => some ps
      | none => parseParametersFromContext options text methodCallInfo
    match parameters with
    | none => none
    | some [] => none
    | some ps =>
      some { arguments := generateArgumentString options ps
             replaceStart := methodCallInfo.argumentsStart
             replaceLength := methodCallInfo.argumentsLength }

/-- A line/character position in a document (`vscode.Position`). -/
structure RangePos where
  line : Nat
  character : Nat
  deriving DecidableEq, Repr

/-- A replacement range (`vscode.Range`); both ends are positions. -/
structure ReplaceRange where
  start : RangePos
  stop : RangePos
  deriving DecidableEq, Repr

/-- A completion suggestion, keeping the fields of the `vscode.CompletionItem`s
built by `ArgumentCompletionProvider.createCompletionItems` that the
specification talks about. -/
structure CompletionItem where
  label : List Char
  detail : List Char
  sortKey : List Char
  range : Option ReplaceRange
  deriving DecidableEq, Repr

/-- The test `/[a-zA-Z0-9_]$/.test(beforeParen)` from
`ArgumentCompletionProvider.isInsideMethodCall`. -/
def endsWithIdent (l : List Char) : Bool :=
  match l.getLast? with
  | some c => isIdentChar c
  | none => false

/-- The backward loop of `ArgumentCompletionProvider.isInsideMethodCall`,
scanning `t` from index `i` down to `0`. -/
def insideCallScan (t : List Char) : Nat → Nat → Bool
  | depth, 0 =>
    if t.getD 0 ' ' = ')' then false
    else if t.getD 0 ' ' = '(' then
      if depth = 0 then endsWithIdent (trim (t.take 0)) else false
    else false
  | depth, i + 1 =>
    if t.getD (i + 1) ' ' = ')' then insideCallScan t (depth + 1) i
    else if t.getD (i + 1) ' ' = '(' then
      if depth = 0 then endsWithIdent (trim (t.take (i + 1)))
      else insideCallScan t (depth - 1) i
    else insideCallScan t depth i

/-- Embedding of `ArgumentCompletionProvider.isInsideMethodCall`, applied to the text of the
cursor's line before the cursor. -/
def isInsideMethodCall (textBeforeCursor : List Char) : Bool :=
  match textBeforeCursor.length with
  | 0 => false
  | n + 1 => insideCallScan textBeforeCursor 0 n

/-- The forward loop of `ArgumentCompletionProvider.calculateReplaceRange`:
find the end of the current argument (the next bracket-depth-0 comma or
closing bracket), defaulting to the cursor position. -/
def calcEndScan : List Char → Nat → Nat → Nat → Nat
  | [], posChar, _, _ => posChar
  | c :: rest, posChar, depth, i =>
    if c = '(' ∨ c = '[' ∨ c = '{' then calcEndScan rest posChar (depth + 1) (i + 1)
    else if c = ')' ∨ c = ']' ∨ c = '}' then
      if depth = 0 then posChar + i else calcEndScan rest posChar (depth - 1) (i + 1)
    else if c = ',' ∧ depth = 0 then posChar + i
    else calcEndScan rest posChar depth (i + 1)

/-- The backward loop of `ArgumentCompletionProvider.calculateReplaceRange`:
find the nearest `'('` or `','` before the cursor, scanning `t` from index `i`
down to `0`; the start of the replacement is just after it. -/
def calcStartScan (t : List Char) : Nat → Option Nat
  | 0 => if t.getD 0 ' ' = '(' ∨ t.getD 0 ' ' = ',' then some 1 else none
  | i + 1 =>
    if t.getD (i + 1) ' ' = '(' ∨ t.getD (i + 1) ' ' = ',' then some (i + 2)
    else calcStartScan t i

/-- One fuel-counted unrolling of the whitespace-skip loop of
`ArgumentCompletionProvider.calculateReplaceRange`. -/
def skipWsSteps (lineText : List Char) (posChar : Nat) : Nat → Nat → Nat
  | 0, s => s
  | fuel + 1, s =>
    if s < posChar ∧ isJsSpace (lineText.getD s ' ') then
      skipWsSteps lineText posChar fuel (s + 1)
    else s

/-- The loop `while (startChar < position.character && \s.test(lineText[startChar]))
startChar++` from `ArgumentCompletionProvider.calculateReplaceRange`. -/
def skipWsForward (lineText : List Char) (posChar : Nat) (s : Nat) : Nat :=
  skipWsSteps lineText posChar (posChar - s) s

/-- Embedding of `ArgumentCompletionProvider.calculateReplaceRange`.  The document is a
list of lines; only the cursor's line is read. -/
def calculateReplaceRange (documentLines : List (List Char)) (pos : RangePos) :
    ReplaceRange :=
  let lineText := documentLines.getD pos.line []
  let textAfterCursor := lineText.drop pos.character
  let endChar := calcEndScan textAfterCursor pos.character 0 0
  let textBeforeCursor := lineText.take pos.character
  let startChar :=
    match textBeforeCursor.length with
    | 0 => pos.character
    | n + 1 =>
      match calcStartScan textBeforeCursor n with
      | none => pos.character
      | some s => skipWsForward lineText pos.character s
  { start := { line := pos.line, character := startChar }
    stop := { line := pos.line, character := endChar } }

/-- Embedding of `ArgumentCompletionProvider.createCompletionItems`: one top-ranked
fill-all suggestion carrying the replacement range, then one suggestion per
parameter. -/
def createCompletionItems (parameters : List MethodParameter)
    (documentLines : List (List Char)) (pos : RangePos) : List CompletionItem :=
  let allArgsString := List.intercalate (chars ", ") (parameters.map MethodParameter.name)
  let allArgsItem : CompletionItem :=
    { label := chars "Fill all arguments"
      detail := chars "Fill with: " ++ allArgsString
      sortKey := chars "0"
      range := some (calculateReplaceRange documentLines pos) }
  allArgsItem ::
    parameters.enum.map (fun ip =>
      { label := ip.2.name
        detail := chars "Parameter " ++ Nat.toDigits 10 (ip.1 + 1) ++ chars ": " ++ ip.2.type
        sortKey := chars "1" ++ Nat.toDigits 10 ip.1
        range := none })

/-- Embedding of `ArgumentCompletionProvider.provideCompletionItems`.  `adapterParameters`
is the outcome of the signature-help query: `none` when completion's symbol
source is absent, fails, or yields no signature. -/
def provideCompletionItems (options : AutofillOptions)
    (adapterParameters : Option (List MethodParameter))
    (documentLines : List (List Char)) (pos : RangePos) :
    Option (List CompletionItem) :=
  if options.enableCompletion = false then none
  else
    let lineText := documentLines.getD pos.line []
    let textBeforeCursor := lineText.take pos.character
    if isInsideMethodCall textBeforeCursor = false then none
    else
      match adapterParameters with
      | none => none
      | some [] => none
      | some ps => some (createCompletionItems ps documentLines pos)

/-- The whitespace-separated split of `ArgumentCompletionProvider.parseParameterLabel`
(`trimmed.split(/\s+/)`), specialised to its already-trimmed argument:
maximal whitespace-free runs, and the single empty token for the empty string. -/
def wordsScan : List Char → List Char → List (List Char)
  | [], cur => if cur = [] then [] else [cur.reverse]
  | c :: rest, cur =>
    if isJsSpace c then
      if cur = [] then wordsScan rest []
      else cur.reverse :: wordsScan rest []
    else wordsScan rest (c :: cur)

/-- The split `trimmed.split(/\s+/)` of a trimmed input. -/
def splitWs (l : List Char) : List (List Char) :=
  if l = [] then [[]] else wordsScan l []

/-- Embedding of `ArgumentFiller.parseParameterLabel` (identical code also appears in
`ArgumentCompletionProvider`): `"<type> <name>"` convention, last token the
name, preceding tokens joined by single spaces the type; a single token is the
name with the generic `Object` type. -/
def parseParameterLabel (label : List Char) : List Char × List Char :=
  let trimmed := trim label
  let parts := splitWs trimmed
  if 2 ≤ parts.length then
    (parts.getLastD [], List.intercalate [' '] (parts.take (parts.length - 1)))
  else (trimmed, chars "Object")

/-- The per-parameter mapping of
`ArgumentFiller.getParametersFromLanguageServer`: parse the label, default an
empty name to `arg<index+1>` and an empty type to `Object`. -/
def parameterFromLabel (label : List Char) (index : Nat) : MethodParameter :=
  let nt := parseParameterLabel label
  { name := if nt.1 = [] then chars "arg" ++ Nat.toDigits 10 (index + 1) else nt.1
    type := if nt.2 = [] then chars "Object" else nt.2
    index := index }

/-- Specification-side counter: the number of commas at bracket depth `0` that
are not inside a single- or double-quoted string literal, under the same
traversal rules as the analyzer (any opener increments, any closer decrements
the single shared depth counter; the string toggle is keyed to the opening
quote character). -/
def topLevelCommaCount : List Char → Int → Bool → Char → Nat
  | [], _, _, _ => 0
  | c :: rest, depth, inString, stringChar =>
    if inString = false then
      if c = '"' ∨ c = '\'' then topLevelCommaCount rest depth true c
      else if c = '(' ∨ c = '[' ∨ c = '{' then
        topLevelCommaCount rest (depth + 1) false stringChar
      else if c = ')' ∨ c = ']' ∨ c = '}' then
        topLevelCommaCount rest (depth - 1) false stringChar
      else if c = ',' ∧ depth = 0 then
        topLevelCommaCount rest depth false stringChar + 1
      else topLevelCommaCount rest depth false stringChar
    else if c = stringChar then topLevelCommaCount rest depth false stringChar
    else topLevelCommaCount rest depth true stringChar

theorem countArgsLoop_eq (l : List Char) :
    ∀ depth inString stringChar n,
      countArgsLoop l depth inString stringChar n
        = n + topLevelCommaCount l depth inString stringChar := by
  induction l with
  | nil => intro depth inString stringChar n; simp [countArgsLoop, topLevelCommaCount]
  | cons c rest ih =>
    intro depth inString stringChar n
    simp only [countArgsLoop, topLevelCommaCount]
    split_ifs <;> simp [ih] <;> omega

theorem findOpenFrom_spec (text : List Char) :
    ∀ i depth j, findOpenFrom text depth i = some j →
      j ≤ i ∧ text.getD j ' ' = '(' := by
  intro i
  induction i with
  | zero =>
    intro depth j h
    unfold findOpenFrom at h
    split_ifs at h
    all_goals simp_all
  | succ i ih =>
    intro depth j h
    unfold findOpenFrom at h
    split_ifs at h with h1 h2 h3
    · exact ⟨Nat.le_succ_of_le (ih _ _ h).1, (ih _ _ h).2⟩
    · cases h
      exact ⟨Nat.le_refl _, h2⟩
    · exact ⟨Nat.le_succ_of_le (ih _ _ h).1, (ih _ _ h).2⟩
    · exact ⟨Nat.le_succ_of_le (ih _ _ h).1, (ih _ _ h).2⟩

theorem findCloseSteps_spec (text : List Char) :
    ∀ fuel depth i j, findCloseSteps text fuel depth i = some j →
      i ≤ j ∧ j < text.length ∧ text.getD j ' ' = ')' := by
  intro fuel
  induction fuel with
  | zero =>
    intro depth i j h
    simp [findCloseSteps] at h
  | succ fuel ih =>
    intro depth i j h
    simp only [findCloseSteps] at h
    split_ifs at h with h1 h2 h3 h4
    · have := ih _ _ _ h
      exact ⟨by omega, this.2⟩
    · cases h
      exact ⟨Nat.le_refl _, h1, h3⟩
    · have := ih _ _ _ h
      exact ⟨by omega, this.2⟩
    · have := ih _ _ _ h
      exact ⟨by omega, this.2⟩

theorem findCloseFrom_spec (text : List Char) (depth i j : Nat)
    (h : findCloseFrom text depth i = some j) :
    i ≤ j ∧ j < text.length ∧ text.getD j ' ' = ')' :=
  findCloseSteps_spec text (text.length - i) depth i j h

/-- C2: the Call-Site Locator scans backward from `max(O-1, 0)` with a depth
counter (`')'` increments; a `'('` at depth `0` is the open paren, otherwise
the depth decrements — `findOpenFrom`), then scans forward over `'('`/`')'`
only for the matching close paren (`findCloseFrom`); on
`"foo(bar(1,2), baz())"` with the cursor inside `baz`'s parentheses it
resolves the call site for `baz`, not `foo`; and it reports "no call site"
(an empty result, not an error) when no open paren or no matching close paren
exists.  The found offsets really carry parentheses of the text. -/
theorem c2_theorem :
    (findMethodCallContext (chars "foo(bar(1,2), baz())") 18
      = some { methodName := chars "baz", isConstructor := false,
               openParenOffset := 17, closeParenOffset := 18,
               argumentsStart := 18, argumentsLength := 0,
               existingArguments := [] })
    ∧ (∀ text offset, findOpenFrom text 0 (if 0 < offset then offset - 1 else 0) = none →
        findMethodCallContext text offset = none)
    ∧ (∀ text offset op,
        findOpenFrom text 0 (if 0 < offset then offset - 1 else 0) = some op →
        findCloseFrom text 1 (op + 1) = none →
        findMethodCallContext text offset = none)
    ∧ (∀ text depth i j, findOpenFrom text depth i = some j →
        j ≤ i ∧ text.getD j ' ' = '(')
    ∧ (∀ text depth i j, findCloseFrom text depth i = some j →
        i ≤ j ∧ j < text.length ∧ text.getD j ' ' = ')') := by
  refine ⟨by decide, ?_, ?_, ?_, ?_⟩
  · intro text offset h
    simp [findMethodCallContext, h]
  · intro text offset op hopen hclose
    simp [findMethodCallContext, hopen, hclose]
  · intro text depth i j h
    exact findOpenFrom_spec text i depth j h
  · intro text depth i j h
    exact findCloseFrom_spec text depth i j h

theorem c2_witness :
    findMethodCallContext (chars "ab") 1 = none
    ∧ findMethodCallContext (chars "f(") 2 = none
    ∧ (1 ≤ 1 ∧ (chars "((").getD 1 ' ' = '(')
    ∧ (0 ≤ 0 ∧ 0 < (chars ")").length ∧ (chars ")").getD 0 ' ' = ')') :=
  ⟨c2_theorem.2.1 (chars "ab") 1 (by decide),
   c2_theorem.2.2.1 (chars "f(") 2 1 (by decide) (by decide),
   c2_theorem.2.2.2.1 (chars "((") 0 1 1 (by decide),
   c2_theorem.2.2.2.2 (chars ")") 1 0 0 (by decide)⟩

/-- C1 (amended): for every located call site whose existing-arguments text is
non-blank, the fill operation returns no fill result when the Symbol-Source
Adapter is absent or yields no parameter list, regardless of the Options
values; on that fallback path user-typed arguments are never overwritten.
(When the adapter does return a parameter list, it takes priority over the
existing-argument check.) -/
theorem c1_theorem (options : AutofillOptions) (text : List Char) (offset : Nat)
    (ctx : MethodCallContext)
    (hfind : findMethodCallContext text offset = some ctx)
    (hne : trim ctx.existingArguments ≠ []) :
    fillArguments options none text offset = none := by
  have hlen : 0 < ctx.existingArguments.length := by
    rcases hargs : ctx.existingArguments with _ | ⟨c, rest⟩
    · rw [hargs] at hne
      simp [trim] at hne
    · simp
  have hcount : 0 < countArguments ctx.existingArguments := by
    unfold countArguments
    rw [if_neg hne, countArgsLoop_eq]
    omega
  have hparse : parseParametersFromContext options text ctx = none := by
    unfold parseParametersFromContext
    rw [if_pos ⟨hlen, hcount⟩]
  simp [fillArguments, hfind, hparse]

theorem c1_witness :
    fillArguments { enableCompletion := true, useParameterNames := true,
                    fallbackToTypeName := true } none (chars "m(1, 2)") 2 = none :=
  c1_theorem _ (chars "m(1, 2)") 2
    { methodName := chars "m", isConstructor := false, openParenOffset := 1,
      closeParenOffset := 6, argumentsStart := 2, argumentsLength := 4,
      existingArguments := chars "1, 2" }
    (by decide) (by decide)

/-- C1 counterexample: a call site whose existing-arguments text is the
non-blank `"1, 2"`, yet — because the Symbol-Source Adapter returns a
parameter list, which the code uses without consulting the existing-argument
check — the fill operation does return a fill result, one that would overwrite
the user-typed arguments. -/
theorem c1_counterexample :
    (findMethodCallContext (chars "m(1, 2)") 2).map MethodCallContext.existingArguments
      = some (chars "1, 2")
    ∧ fillArguments { enableCompletion := true, useParameterNames := true,
                      fallbackToTypeName := true }
        (some [{ name := chars "a", type := chars "int", index := 0 }])
        (chars "m(1, 2)") 2
      = some { arguments := chars "a", replaceStart := 2, replaceLength := 4 } := by
  decide

/-- C4: the Argument-List Analyzer returns `0` on a blank substring and
otherwise `1` plus the number of commas at bracket depth `0` outside single-
or double-quoted string literals (single shared depth counter over all three
bracket kinds, string toggle keyed to the opening quote); on
`"a, [1,2], {x:1,y:2}"` it returns `3`. -/
theorem c4_theorem :
    (∀ s, trim s = [] → countArguments s = 0)
    ∧ (∀ s, trim s ≠ [] → countArguments s = 1 + topLevelCommaCount s 0 false ' ')
    ∧ countArguments (chars "a, [1,2], \x7bx:1,y:2\x7d") = 3 := by
  refine ⟨?_, ?_, by decide⟩
  · intro s h
    unfold countArguments
    rw [if_pos h]
  · intro s h
    unfold countArguments
    rw [if_neg h, countArgsLoop_eq]

theorem c4_witness :
    countArguments (chars "  ") = 0
    ∧ countArguments (chars "a,b") = 1 + topLevelCommaCount (chars "a,b") 0 false ' ' :=
  ⟨c4_theorem.1 (chars "  ") (by decide),
   c4_theorem.2.1 (chars "a,b") (by decide)⟩

/-- Specification-side wording of the type-derived identifier: strip angle
brackets and square brackets from the type, take the substring after the last
`'.'`, lower-case its first character, and use the literal word `arg` if the
result is empty. -/
def specTypeDerivedName (t : List Char) : List Char :=
  let lowered := lowerFirst (afterLastDot (stripTypeBrackets t))
  if lowered = [] then chars "arg" else lowered

/-- Specification-side wording of the Argument Text Synthesizer: the `", "`
joined per-parameter texts, parameter names when `useParameterNames` is set
(even when `fallbackToTypeName` is also set), else type-derived identifiers
when `fallbackToTypeName` is set, else 1-based positional `argN`
placeholders. -/
def specArgumentText (options : AutofillOptions)
    (parameters : List MethodParameter) : List Char :=
  if options.useParameterNames then
    List.intercalate (chars ", ") (parameters.map MethodParameter.name)
  else if options.fallbackToTypeName then
    List.intercalate (chars ", ") (parameters.map (fun p => specTypeDerivedName p.type))
  else
    List.intercalate (chars ", ")
      (parameters.enum.map (fun ip => chars "arg" ++ Nat.toDigits 10 (ip.1 + 1)))

theorem typeDerivedName_eq_spec (t : List Char) :
    typeDerivedName t = specTypeDerivedName t := by
  unfold typeDerivedName specTypeDerivedName orArg
  cases afterLastDot (stripTypeBrackets t) with
  | nil => decide
  | cons c rest => simp [lowerFirst]

/-- C3: for every non-empty parameter list the synthesizer produces the
`", "`-joined per-parameter texts under the fixed total precedence: parameter
names if `useParameterNames` (even when `fallbackToTypeName` is also true);
else type-derived identifiers if `fallbackToTypeName` (strip angle and square
brackets, substring after the last `'.'`, lower-case the first character,
literal `arg` when empty); else positional placeholders `arg1, arg2, ...`. -/
theorem c3_theorem :
    (∀ options parameters, parameters ≠ [] →
      generateArgumentString options parameters = specArgumentText options parameters)
    ∧ (∀ (e f : Bool) (parameters : List MethodParameter),
        generateArgumentString { enableCompletion := e, useParameterNames := true,
                                 fallbackToTypeName := f } parameters
          = List.intercalate (chars ", ") (parameters.map MethodParameter.name)) := by
  constructor
  · intro options parameters _
    simp only [generateArgumentString, specArgumentText, typeDerivedName_eq_spec]
  · intro e f parameters
    simp [generateArgumentString]

theorem c3_witness :
    generateArgumentString { enableCompletion := true, useParameterNames := false,
                             fallbackToTypeName := true }
        [{ name := chars "x", type := chars "java.util.List<String>", index := 0 }]
      = specArgumentText { enableCompletion := true, useParameterNames := false,
                           fallbackToTypeName := true }
        [{ name := chars "x", type := chars "java.util.List<String>", index := 0 }] :=
  c3_theorem.1 _ _ (by decide)

/-- C5: on the heuristic path (empty parentheses, no authoritative adapter
data): a disabled `fallbackToTypeName` yields no parameters; an enabled one
consults the fixed lookup table (callee `equals` yields the single parameter
name `obj`, and under the default options the fill text `obj`); a callee that
matches neither the setter pattern nor any table entry yields no fill
result. -/
theorem c5_theorem :
    (∀ options text ctx, ctx.existingArguments = [] →
      options.fallbackToTypeName = false →
      parseParametersFromContext options text ctx = none)
    ∧ (generatePlaceholderParameters (chars "equals") false
        = [{ name := chars "obj", type := chars "Object", index := 0 }])
    ∧ (fillArguments { enableCompletion := true, useParameterNames := true,
                       fallbackToTypeName := true } none (chars "x.equals()") 9
        = some { arguments := chars "obj", replaceStart := 9, replaceLength := 0 })
    ∧ (∀ b, generatePlaceholderParameters (chars "mysteryMethod") b = [])
    ∧ (∀ options text offset ctx,
        findMethodCallContext text offset = some ctx →
        ctx.existingArguments = [] →
        generatePlaceholderParameters ctx.methodName ctx.isConstructor = [] →
        fillArguments options none text offset = none) := by
  refine ⟨?_, by decide, by decide, ?_, ?_⟩
  · intro options text ctx hempty hfallback
    unfold parseParametersFromContext
    rw [hempty, hfallback]
    simp
  · intro b
    cases b <;> decide
  · intro options text offset ctx hfind hempty hplace
    have hparse : parseParametersFromContext options text ctx = none
        ∨ parseParametersFromContext options text ctx = some [] := by
      by_cases hf : options.fallbackToTypeName
      · right
        simp [parseParametersFromContext, hempty, hplace, hf]
      · left
        simp [parseParametersFromContext, hempty, hf]
    rcases hparse with h | h <;> simp [fillArguments, hfind, h]

theorem c5_witness :
    parseParametersFromContext { enableCompletion := true, useParameterNames := true,
                                 fallbackToTypeName := false } []
      { methodName := chars "equals", isConstructor := false, openParenOffset := 0,
        closeParenOffset := 1, argumentsStart := 1, argumentsLength := 0,
        existingArguments := [] } = none
    ∧ generatePlaceholderParameters (chars "mysteryMethod") true = []
    ∧ fillArguments { enableCompletion := true, useParameterNames := true,
                      fallbackToTypeName := true } none
        (chars "x.mysteryMethod()") 16 = none :=
  ⟨c5_theorem.1 _ [] _ rfl rfl,
   c5_theorem.2.2.2.1 true,
   c5_theorem.2.2.2.2 _ (chars "x.mysteryMethod()") 16
     { methodName := chars "mysteryMethod", isConstructor := false,
       openParenOffset := 15, closeParenOffset := 16, argumentsStart := 16,
       argumentsLength := 0, existingArguments := [] }
     (by decide) (by decide) (by decide)⟩

/-- C6: on the heuristic path, every callee of the form `set` followed by at
least one more character yields exactly one parameter, named by the remainder
after `set` with its first letter lower-cased and the rest unchanged, with the
generic object type; callee `setTitle` yields parameter `title` and fill text
`title`. -/
theorem c6_theorem :
    (∀ (c : Char) (rest : List Char) (b : Bool),
      generatePlaceholderParameters (chars "set" ++ c :: rest) b
        = [{ name := Char.toLower c :: rest, type := chars "Object", index := 0 }])
    ∧ fillArguments { enableCompletion := true, useParameterNames := true,
                      fallbackToTypeName := true } none (chars "o.setTitle()") 11
        = some { arguments := chars "title", replaceStart := 11, replaceLength := 0 } := by
  constructor
  · intro c rest b
    unfold generatePlaceholderParameters
    rw [if_pos ⟨rfl, by simp [chars]⟩]
    rfl
  · decide

/-- C7: the completion surface produces no suggestions (not an error) whenever
completion is disabled, the lightweight syntactic check fails, or the
Symbol-Source Adapter is absent or yields no parameters; it never consults the
heuristic fallback table (the adapter outcome alone decides whether any
suggestion is produced). -/
theorem c7_theorem :
    (∀ options ps lines pos, options.enableCompletion = false →
      provideCompletionItems options ps lines pos = none)
    ∧ (∀ options ps lines pos,
        isInsideMethodCall ((lines.getD pos.line []).take pos.character) = false →
        provideCompletionItems options ps lines pos = none)
    ∧ (∀ options lines pos, provideCompletionItems options none lines pos = none)
    ∧ (∀ options lines pos, provideCompletionItems options (some []) lines pos = none) := by
  refine ⟨?_, ?_, ?_, ?_⟩
  · intro options ps lines pos h
    simp [provideCompletionItems, h]
  · intro options ps lines pos h
    simp only [provideCompletionItems]
    rw [h]
    simp
  · intro options lines pos
    simp [provideCompletionItems]
  · intro options lines pos
    simp [provideCompletionItems]

theorem c7_witness :
    provideCompletionItems { enableCompletion := false, useParameterNames := true,
                             fallbackToTypeName := true }
      (some [{ name := chars "a", type := chars "int", index := 0 }])
      [chars "m("] { line := 0, character := 2 } = none
    ∧ provideCompletionItems { enableCompletion := true, useParameterNames := true,
                               fallbackToTypeName := true }
        (some [{ name := chars "a", type := chars "int", index := 0 }])
        [chars "ab"] { line := 0, character := 2 } = none :=
  ⟨c7_theorem.1 _ _ [chars "m("] { line := 0, character := 2 } rfl,
   c7_theorem.2.1 _ _ [chars "ab"] { line := 0, character := 2 } (by decide)⟩

theorem findMethodCallContext_spec (text : List Char) (offset : Nat)
    (ctx : MethodCallContext) (h : findMethodCallContext text offset = some ctx) :
    ctx.openParenOffset < ctx.closeParenOffset
    ∧ ctx.argumentsStart = ctx.openParenOffset + 1
    ∧ ctx.argumentsLength = ctx.closeParenOffset - ctx.openParenOffset - 1
    ∧ ctx.existingArguments
        = trim ((text.drop (ctx.openParenOffset + 1)).take
            (ctx.closeParenOffset - ctx.openParenOffset - 1))
    ∧ ctx.closeParenOffset < text.length := by
  simp only [findMethodCallContext] at h
  rcases hopen : findOpenFrom text 0 (if 0 < offset then offset - 1 else 0) with _ | op
  · simp only [hopen] at h
    exact Option.noConfusion h
  simp only [hopen] at h
  rcases hclose : findCloseFrom text 1 (op + 1) with _ | cl
  · simp only [hclose] at h
    exact Option.noConfusion h
  simp only [hclose] at h
  rcases hname : extractMethodName text op with _ | nm
  · simp only [hname] at h
    exact Option.noConfusion h
  obtain ⟨name, isCtor⟩ := nm
  simp only [hname, Option.some.injEq] at h
  subst h
  have hcl := findCloseFrom_spec text 1 (op + 1) cl hclose
  refine ⟨?_, rfl, rfl, rfl, hcl.2.1⟩
  show op < cl
  omega

/-- C8 (amended): every located `MethodCallContext` satisfies
`openOffset < closeOffset`, `argumentsStart = openOffset + 1`,
`argumentsLength = closeOffset - openOffset - 1`, and `existingArguments`
equal to the whitespace-trimmed substring of the document between the
parentheses (the code stores the trimmed text, which it uses only for
emptiness checks); a successful fill result's replacement span is exactly the
between-parens span and lies within document bounds. -/
theorem c8_theorem :
    (∀ text offset ctx, findMethodCallContext text offset = some ctx →
      ctx.openParenOffset < ctx.closeParenOffset
      ∧ ctx.argumentsStart = ctx.openParenOffset + 1
      ∧ ctx.argumentsLength = ctx.closeParenOffset - ctx.openParenOffset - 1
      ∧ ctx.existingArguments
          = trim ((text.drop (ctx.openParenOffset + 1)).take
              (ctx.closeParenOffset - ctx.openParenOffset - 1))
      ∧ ctx.closeParenOffset < text.length)
    ∧ (∀ options ls text offset r, fillArguments options ls text offset = some r →
        ∃ ctx, findMethodCallContext text offset = some ctx
          ∧ r.replaceStart = ctx.argumentsStart
          ∧ r.replaceLength = ctx.argumentsLength
          ∧ r.replaceStart + r.replaceLength < text.length) := by
  constructor
  · exact findMethodCallContext_spec
  · intro options ls text offset r h
    simp only [fillArguments] at h
    rcases hfind : findMethodCallContext text offset with _ | ctx
    · simp only [hfind] at h
      exact Option.noConfusion h
    simp only [hfind] at h
    have hspec := findMethodCallContext_spec text offset ctx hfind
    obtain ⟨s1, s2, s3, s4, s5⟩ := hspec
    rcases ls with _ | ps
    · rcases hps : parseParametersFromContext options text ctx with _ | ps
      · simp only [hps] at h
        exact Option.noConfusion h
      simp only [hps] at h
      cases ps with
      | nil => exact Option.noConfusion h
      | cons p rest =>
        simp only [Option.some.injEq] at h
        subst h
        refine ⟨ctx, rfl, rfl, rfl, ?_⟩
        show ctx.argumentsStart + ctx.argumentsLength < text.length
        omega
    · cases ps with
      | nil => exact Option.noConfusion h
      | cons p rest =>
        simp only [Option.some.injEq] at h
        subst h
        refine ⟨ctx, rfl, rfl, rfl, ?_⟩
        show ctx.argumentsStart + ctx.argumentsLength < text.length
        omega

/-- C8 counterexample: for the document `"f( a )"` with the cursor inside the
parentheses, the stored `existingArguments` is the trimmed `"a"`, not the
exact between-parens substring `" a "` the claim asserts. -/
theorem c8_counterexample :
    (findMethodCallContext (chars "f( a )") 2).map MethodCallContext.existingArguments
      = some (chars "a")
    ∧ ((chars "f( a )").drop 2).take 3 = chars " a "
    ∧ chars "a" ≠ chars " a " := by
  decide

def sampleCtx : MethodCallContext :=
  { methodName := chars "f", isConstructor := false, openParenOffset := 1,
    closeParenOffset := 5, argumentsStart := 2, argumentsLength := 3,
    existingArguments := chars "a" }

def sampleFill : ArgumentFillResult :=
  { arguments := chars "x", replaceStart := 2, replaceLength := 3 }

theorem c8_witness :
    (sampleCtx.openParenOffset < sampleCtx.closeParenOffset
      ∧ sampleCtx.argumentsStart = sampleCtx.openParenOffset + 1
      ∧ sampleCtx.argumentsLength
          = sampleCtx.closeParenOffset - sampleCtx.openParenOffset - 1
      ∧ sampleCtx.existingArguments
          = trim (((chars "f( a )").drop (sampleCtx.openParenOffset + 1)).take
              (sampleCtx.closeParenOffset - sampleCtx.openParenOffset - 1))
      ∧ sampleCtx.closeParenOffset < (chars "f( a )").length)
    ∧ (∃ ctx, findMethodCallContext (chars "f( a )") 2 = some ctx
        ∧ sampleFill.replaceStart = ctx.argumentsStart
        ∧ sampleFill.replaceLength = ctx.argumentsLength
        ∧ sampleFill.replaceStart + sampleFill.replaceLength
            < (chars "f( a )").length) :=
  ⟨c8_theorem.1 (chars "f( a )") 2 sampleCtx (by decide),
   c8_theorem.2 { enableCompletion := true, useParameterNames := true,
                  fallbackToTypeName := true }
     (some [{ name := chars "x", type := chars "T", index := 0 }])
     (chars "f( a )") 2 sampleFill (by decide)⟩

theorem dropWhile_head_not_ws (l : List Char) :
    ∀ c cs, l.dropWhile isJsSpace = c :: cs → isJsSpace c = false := by
  induction l with
  | nil =>
    intro c cs h
    simp [List.dropWhile] at h
  | cons a rest ih =>
    intro c cs h
    by_cases hw : isJsSpace a = true
    · rw [List.dropWhile_cons_of_pos hw] at h
      exact ih c cs h
    · rw [List.dropWhile_cons_of_neg hw] at h
      cases h
      exact Bool.not_eq_true _ ▸ hw

theorem trim_head_not_ws (l : List Char) (h : trim l ≠ []) :
    isJsSpace ((trim l).headD ' ') = false := by
  cases hB : trim l with
  | nil => exact absurd hB h
  | cons b bs =>
    have hpref : trim l <+: l.dropWhile isJsSpace :=
      List.rdropWhile_prefix isJsSpace (l.dropWhile isJsSpace)
    obtain ⟨tl, htl⟩ := hpref
    rw [hB] at htl
    have : l.dropWhile isJsSpace = b :: (bs ++ tl) := by
      rw [← htl]
      simp
    simpa using dropWhile_head_not_ws l b (bs ++ tl) this

theorem trim_last_not_ws (l : List Char) (h : trim l ≠ []) :
    isJsSpace ((trim l).getLastD ' ') = false := by
  unfold trim at h ⊢
  cases hX : (l.dropWhile isJsSpace).reverse.dropWhile isJsSpace with
  | nil =>
    rw [hX] at h
    simp at h
  | cons c cs =>
    have hc := dropWhile_head_not_ws (l.dropWhile isJsSpace).reverse c cs hX
    have hlast : ((c :: cs).reverse).getLastD ' ' = c := by
      simp [List.getLastD_eq_getLast?]
    rw [hlast]
    exact hc

theorem wordsScan_ne_nil (l : List Char) :
    ∀ cur, cur ≠ [] → wordsScan l cur ≠ [] := by
  induction l with
  | nil =>
    intro cur h
    simp [wordsScan, h]
  | cons c rest ih =>
    intro cur h
    simp only [wordsScan]
    by_cases hw : isJsSpace c = true
    · rw [if_pos hw, if_neg h]
      simp
    · rw [if_neg hw]
      exact ih (c :: cur) (by simp)

theorem wordsScan_nil_all_ws (l : List Char) :
    wordsScan l [] = [] → ∀ c ∈ l, isJsSpace c = true := by
  induction l with
  | nil =>
    intro _ c hc
    simp at hc
  | cons c rest ih =>
    intro h d hd
    by_cases hw : isJsSpace c = true
    · simp only [wordsScan, if_pos hw, if_pos rfl] at h
      rcases List.mem_cons.mp hd with rfl | hd'
      · exact hw
      · exact ih h d hd'
    · simp only [wordsScan, if_neg hw] at h
      exact absurd h (wordsScan_ne_nil rest [c] (by simp))

theorem wordsScan_single (l : List Char) :
    ∀ cur t, (cur = [] → isJsSpace (l.headD ' ') = false) →
      wordsScan l cur = [t] →
      ∃ tail, cur.reverse ++ l = t ++ tail ∧ ∀ c ∈ tail, isJsSpace c = true := by
  induction l with
  | nil =>
    intro cur t hh h
    by_cases hc : cur = []
    · subst hc
      exact absurd (hh rfl) (by decide)
    · simp only [wordsScan, if_neg hc] at h
      obtain rfl : cur.reverse = t := by simpa using h
      exact ⟨[], by simp, by simp⟩
  | cons c rest ih =>
    intro cur t hh h
    by_cases hw : isJsSpace c = true
    · by_cases hc : cur = []
      · subst hc
        have := hh rfl
        simp only [List.headD] at this
        exact absurd hw (by simp [this])
      · simp only [wordsScan, if_pos hw, if_neg hc, List.cons.injEq] at h
        obtain ⟨rfl, h2⟩ := h
        refine ⟨c :: rest, by simp, ?_⟩
        intro d hd
        rcases List.mem_cons.mp hd with rfl | hd'
        · exact hw
        · exact wordsScan_nil_all_ws rest h2 d hd'
    · simp only [wordsScan, if_neg hw] at h
      obtain ⟨tail, ht, hws⟩ := ih (c :: cur) t (by simp) h
      refine ⟨tail, ?_, hws⟩
      simpa [List.append_assoc] using ht

theorem splitWs_trim_single (l t : List Char) (h : splitWs (trim l) = [t]) :
    t = trim l := by
  by_cases hl : trim l = []
  · rw [hl] at h ⊢
    simp [splitWs] at h
    exact h
  · rw [splitWs, if_neg hl] at h
    obtain ⟨tail, ht, hws⟩ :=
      wordsScan_single (trim l) [] t (fun _ => trim_head_not_ws l hl) h
    simp only [List.reverse_nil, List.nil_append] at ht
    cases tail with
    | nil =>
      simp only [List.append_nil] at ht
      exact ht.symm
    | cons d tl =>
      exfalso
      have hlast := trim_last_not_ws l hl
      have hmem : (trim l).getLastD ' ' ∈ d :: tl := by
        rw [ht, List.getLastD_eq_getLast?, List.getLast?_append_cons]
        have hne : (d :: tl) ≠ ([] : List Char) := by simp
        rw [List.getLast?_eq_getLast _ hne, Option.getD_some]
        exact List.getLast_mem hne
      have := hws _ hmem
      rw [this] at hlast
      cases hlast

/-- C9: every adapter-supplied parameter label is trimmed and split on
whitespace; two or more tokens make the last token the name and the preceding
tokens joined by single spaces the type; exactly one token makes that token
the name with the generic `Object` type; an empty resulting name defaults to
`arg<index+1>` (1-based) and an empty resulting type defaults to `Object`. -/
theorem c9_theorem :
    (∀ label, 2 ≤ (splitWs (trim label)).length →
      parseParameterLabel label
        = ((splitWs (trim label)).getLastD [],
           List.intercalate [' ']
             ((splitWs (trim label)).take ((splitWs (trim label)).length - 1))))
    ∧ (∀ label, (splitWs (trim label)).length = 1 →
        parseParameterLabel label = ((splitWs (trim label)).getD 0 [], chars "Object"))
    ∧ (∀ label index, (parseParameterLabel label).1 = [] →
        (parameterFromLabel label index).name = chars "arg" ++ Nat.toDigits 10 (index + 1))
    ∧ (∀ label index, (parseParameterLabel label).2 = [] →
        (parameterFromLabel label index).type = chars "Object") := by
  refine ⟨?_, ?_, ?_, ?_⟩
  · intro label h
    unfold parseParameterLabel
    rw [if_pos h]
  · intro label h
    unfold parseParameterLabel
    rw [if_neg (by omega)]
    cases hp : splitWs (trim label) with
    | nil =>
      rw [hp] at h
      simp at h
    | cons tok rest =>
      rw [hp] at h
      simp only [List.length_cons, Nat.add_left_eq_self, List.length_eq_zero] at h
      subst h
      have := splitWs_trim_single label tok hp
      simp [this]
  · intro label index h
    unfold parameterFromLabel
    simp [h]
  · intro label index h
    unfold parameterFromLabel
    simp [h]

theorem c9_witness :
    parseParameterLabel (chars "int x")
      = ((splitWs (trim (chars "int x"))).getLastD [],
         List.intercalate [' ']
           ((splitWs (trim (chars "int x"))).take
             ((splitWs (trim (chars "int x"))).length - 1)))
    ∧ parseParameterLabel (chars "count")
        = ((splitWs (trim (chars "count"))).getD 0 [], chars "Object")
    ∧ (parameterFromLabel (chars "  ") 2).name = chars "arg" ++ Nat.toDigits 10 3 :=
  ⟨c9_theorem.1 (chars "int x") (by decide),
   c9_theorem.2.1 (chars "count") (by decide),
   c9_theorem.2.2.1 (chars "  ") 2 (by decide)⟩

/-- The full document text as the editor exposes it to
`ArgumentFiller.fillArguments` (`document.getText()`): the lines joined by a
single newline. -/
def joinLines : List (List Char) → List Char
  | [] => []
  | [l] => l
  | l :: m :: ls => l ++ '\n' :: joinLines (m :: ls)

/-- Document offset of the first character of line `n` under `joinLines`. -/
def lineStartOffset : List (List Char) → Nat → Nat
  | _, 0 => 0
  | [], _ + 1 => 0
  | l :: ls, n + 1 => l.length + 1 + lineStartOffset ls n

/-- Decidable mirror of "a bracket-depth-0 comma or closing bracket follows":
exactly the stopping condition of the forward scan of
`ArgumentCompletionProvider.calculateReplaceRange`. -/
def hasTopLevelBreak : List Char → Nat → Bool
  | [], _ => false
  | c :: rest, depth =>
    if c = '(' ∨ c = '[' ∨ c = '{' then hasTopLevelBreak rest (depth + 1)
    else if c = ')' ∨ c = ']' ∨ c = '}' then
      if depth = 0 then true else hasTopLevelBreak rest (depth - 1)
    else if c = ',' ∧ depth = 0 then true
    else hasTopLevelBreak rest depth

theorem calcEndScan_no_break (l : List Char) :
    ∀ posChar depth i, hasTopLevelBreak l depth = false →
      calcEndScan l posChar depth i = posChar := by
  induction l with
  | nil => intro posChar depth i _; rfl
  | cons c rest ih =>
    intro posChar depth i h
    simp only [hasTopLevelBreak] at h
    simp only [calcEndScan]
    by_cases h1 : c = '(' ∨ c = '[' ∨ c = '{'
    · rw [if_pos h1] at h ⊢
      exact ih posChar (depth + 1) (i + 1) h
    · rw [if_neg h1] at h ⊢
      by_cases h2 : c = ')' ∨ c = ']' ∨ c = '}'
      · rw [if_pos h2] at h ⊢
        by_cases h3 : depth = 0
        · rw [if_pos h3] at h
          cases h
        · rw [if_neg h3] at h ⊢
          exact ih posChar (depth - 1) (i + 1) h
      · rw [if_neg h2] at h ⊢
        by_cases h4 : c = ',' ∧ depth = 0
        · rw [if_pos h4] at h
          cases h
        · rw [if_neg h4] at h ⊢
          exact ih posChar depth (i + 1) h

theorem getD_append_mid (p t s : List Char) (m : Nat) (hm : m < t.length) :
    (p ++ t ++ s).getD (p.length + m) ' ' = t.getD m ' ' := by
  rw [List.append_assoc, List.getD_append_right _ _ _ _ (by omega),
    Nat.add_sub_cancel_left, List.getD_append _ _ _ _ hm]

theorem findOpenFrom_at_open (L : List Char) (n : Nat) (hc : L.getD n ' ' = '(') :
    findOpenFrom L 0 n = some n := by
  cases n with
  | zero =>
    unfold findOpenFrom
    rw [hc, if_neg (by decide), if_pos rfl, if_pos rfl]
  | succ m =>
    unfold findOpenFrom
    rw [hc, if_neg (by decide), if_pos rfl, if_pos rfl]

theorem findOpenFrom_append (p t s : List Char) :
    ∀ i depth k, i < t.length → findOpenFrom t depth i = some k →
      findOpenFrom (p ++ t ++ s) depth (p.length + i) = some (p.length + k) := by
  intro i
  induction i with
  | zero =>
    intro depth k hi h
    unfold findOpenFrom at h
    split_ifs at h with h1 h2 h3
    cases h
    have hchar : (p ++ t ++ s).getD p.length ' ' = '(' := by
      have := getD_append_mid p t s 0 hi
      rw [h2] at this
      exact this
    have h0 : findOpenFrom (p ++ t ++ s) 0 p.length = some p.length :=
      findOpenFrom_at_open (p ++ t ++ s) p.length hchar
    rw [h3]
    exact h0
  | succ j ih =>
    intro depth k hi h
    unfold findOpenFrom at h
    have hchar : (p ++ t ++ s).getD (p.length + j + 1) ' ' = t.getD (j + 1) ' ' := by
      rw [show p.length + j + 1 = p.length + (j + 1) from by omega]
      exact getD_append_mid p t s (j + 1) hi
    show findOpenFrom (p ++ t ++ s) depth (p.length + j + 1) = some (p.length + k)
    unfold findOpenFrom
    rw [hchar]
    split_ifs at h ⊢ with h1 h2 h3
    · exact ih (depth + 1) k (by omega) h
    · cases h
      rfl
    · exact ih (depth - 1) k (by omega) h
    · exact ih depth k (by omega) h

theorem insideCallScan_finds (t : List Char) :
    ∀ i depth, insideCallScan t depth i = true →
      ∃ k, findOpenFrom t depth i = some k := by
  intro i
  induction i with
  | zero =>
    intro depth h
    unfold insideCallScan at h
    unfold findOpenFrom
    by_cases h1 : t.getD 0 ' ' = ')'
    · rw [if_pos h1] at h
      cases h
    · rw [if_neg h1] at h ⊢
      by_cases h2 : t.getD 0 ' ' = '('
      · rw [if_pos h2] at h ⊢
        by_cases h3 : depth = 0
        · rw [if_pos h3]
          exact ⟨0, rfl⟩
        · rw [if_neg h3] at h
          cases h
      · rw [if_neg h2] at h
        cases h
  | succ j ih =>
    intro depth h
    unfold insideCallScan at h
    unfold findOpenFrom
    by_cases h1 : t.getD (j + 1) ' ' = ')'
    · rw [if_pos h1] at h ⊢
      exact ih (depth + 1) h
    · rw [if_neg h1] at h ⊢
      by_cases h2 : t.getD (j + 1) ' ' = '('
      · rw [if_pos h2] at h ⊢
        by_cases h3 : depth = 0
        · rw [if_pos h3]
          exact ⟨j + 1, rfl⟩
        · rw [if_neg h3] at h ⊢
          exact ih (depth - 1) h
      · rw [if_neg h2] at h ⊢
        exact ih depth h

theorem joinLines_decompose (lines : List (List Char)) :
    ∀ n, n < lines.length →
      ∃ p s, joinLines lines = p ++ lines.getD n [] ++ s
        ∧ p.length = lineStartOffset lines n := by
  induction lines with
  | nil =>
    intro n h
    simp at h
  | cons l ls ih =>
    intro n h
    cases n with
    | zero =>
      cases ls with
      | nil => exact ⟨[], [], by simp [joinLines], by simp [lineStartOffset]⟩
      | cons m ms =>
        exact ⟨[], '\n' :: joinLines (m :: ms), by simp [joinLines], rfl⟩
    | succ n =>
      have hn : n < ls.length := by simpa using h
      obtain ⟨p, s, hp, hl⟩ := ih n hn
      cases ls with
      | nil => simp at hn
      | cons m ms =>
        refine ⟨l ++ '\n' :: p, s, ?_, ?_⟩
        · simp only [joinLines, hp]
          simp [List.append_assoc]
        · simp only [lineStartOffset, List.length_append, List.length_cons]
          omega

theorem provideCompletionItems_none_of_outside (options : AutofillOptions)
    (ps : Option (List MethodParameter)) (lines : List (List Char)) (pos : RangePos)
    (h : isInsideMethodCall ((lines.getD pos.line []).take pos.character) = false) :
    provideCompletionItems options ps lines pos = none := by
  simp only [provideCompletionItems]
  rw [h]
  simp

/-- C10: the completion surface examines only the text of the cursor's own
line: when the unmatched `'('` enclosing the cursor (found by the
full-document backward scan) lies on an earlier line, `provideCompletionItems`
yields no suggestions even when the adapter could supply parameters; and every
computed replacement span starts and ends on the cursor's line, with the span
end defaulting to the cursor position when no bracket-depth-0 comma or closing
bracket follows on that line. -/
theorem c10_theorem :
    (∀ lines pos options ps j,
      pos.line < lines.length →
      pos.character ≤ (lines.getD pos.line []).length →
      findOpenFrom (joinLines lines) 0
        (lineStartOffset lines pos.line + pos.character - 1) = some j →
      j < lineStartOffset lines pos.line →
      provideCompletionItems options ps lines pos = none)
    ∧ (∀ lines pos,
        (calculateReplaceRange lines pos).start.line = pos.line
        ∧ (calculateReplaceRange lines pos).stop.line = pos.line)
    ∧ (∀ lines pos,
        hasTopLevelBreak ((lines.getD pos.line []).drop pos.character) 0 = false →
        (calculateReplaceRange lines pos).stop.character = pos.character) := by
  refine ⟨?_, ?_, ?_⟩
  · intro lines pos options ps j hline hchar hopen hlt
    by_cases hpc : pos.character = 0
    · refine provideCompletionItems_none_of_outside options ps lines pos ?_
      rw [hpc, List.take_zero]
      rfl
    by_cases hins : isInsideMethodCall ((lines.getD pos.line []).take pos.character) = true
    · exfalso
      obtain ⟨p, s, hdecomp, hplen⟩ := joinLines_decompose lines pos.line hline
      have htblen : ((lines.getD pos.line []).take pos.character).length
          = pos.character := by
        rw [List.length_take]
        omega
      have hscan : insideCallScan ((lines.getD pos.line []).take pos.character) 0
          (((lines.getD pos.line []).take pos.character).length - 1) = true := by
        unfold isInsideMethodCall at hins
        rw [htblen] at hins ⊢
        cases hc : pos.character with
        | zero => exact absurd hc hpc
        | succ n =>
          rw [hc] at hins
          simpa using hins
      obtain ⟨k, hk⟩ := insideCallScan_finds
        ((lines.getD pos.line []).take pos.character)
        (((lines.getD pos.line []).take pos.character).length - 1) 0 hscan
      have hfull : joinLines lines
          = p ++ (lines.getD pos.line []).take pos.character
            ++ ((lines.getD pos.line []).drop pos.character ++ s) := by
        conv_lhs => rw [hdecomp,
          ← List.take_append_drop pos.character (lines.getD pos.line [])]
        simp only [List.append_assoc]
      have hshift := findOpenFrom_append p
        ((lines.getD pos.line []).take pos.character)
        ((lines.getD pos.line []).drop pos.character ++ s)
        (((lines.getD pos.line []).take pos.character).length - 1) 0 k
        (by omega) hk
      rw [← hfull] at hshift
      rw [show p.length + (((lines.getD pos.line []).take pos.character).length - 1)
          = lineStartOffset lines pos.line + pos.character - 1 from by
        rw [hplen, htblen]; omega] at hshift
      have hj : j = p.length + k := by
        have := hopen.symm.trans hshift
        simpa using this
      omega
    · refine provideCompletionItems_none_of_outside options ps lines pos ?_
      simpa using hins
  · intro lines pos
    exact ⟨rfl, rfl⟩
  · intro lines pos h
    show calcEndScan ((lines.getD pos.line []).drop pos.character) pos.character 0 0
      = pos.character
    exact calcEndScan_no_break _ pos.character 0 0 h

theorem c10_witness :
    provideCompletionItems { enableCompletion := true, useParameterNames := true,
                             fallbackToTypeName := true }
      (some [{ name := chars "a", type := chars "int", index := 0 }])
      [chars "m(", chars "ab"] { line := 1, character := 2 } = none
    ∧ ((calculateReplaceRange [chars "foo(ab"] { line := 0, character := 5 }).start.line = 0
        ∧ (calculateReplaceRange [chars "foo(ab"] { line := 0, character := 5 }).stop.line = 0)
    ∧ (calculateReplaceRange [chars "foo(ab"] { line := 0, character := 5 }).stop.character
        = 5 :=
  ⟨c10_theorem.1 [chars "m(", chars "ab"] { line := 1, character := 2 } _ _ 1
     (by decide) (by decide) (by decide) (by decide),
   c10_theorem.2.1 [chars "foo(ab"] { line := 0, character := 5 },
   c10_theorem.2.2 [chars "foo(ab"] { line := 0, character := 5 } (by decide)⟩

end Autofill
